import Mathlib

/-!
Shallow embedding of `linq.go` (package `linq`, tedli/go-linq).

The Go code threads a `queryable` value through chained operations:
a slice of `interface{}` values plus a sticky `err` field.  We model:

* elements of a sequence by a type parameter `α` with decidable equality
  (Go `==` on comparable `interface{}` values);
* the Go `error` results by `Option Err`, where `Err` is the sentinel
  taxonomy declared at the top of `linq.go` plus a `user` family standing
  for arbitrary errors returned from caller-supplied callables;
* Go callables, which may be `nil`, by `Option` of a Lean function; a
  Go func returning `(T, error)` becomes a Lean function into
  `T × Option Err`;
* Go `nil` slices passed as input by `Option (List α)`;
* Go maps (used only with insert / delete / iterate) by insertion-ordered
  association structures: iteration order of a Go map is unspecified, the
  model fixes insertion order (every property proved below about a
  map-backed operation that the spec states is order-insensitive).
-/

namespace Linq

/-- The sentinel error values of `linq.go` lines 18-26, plus `user n`
modelling arbitrary non-nil errors produced by caller-supplied callables. -/
inductive Err where
  | nilFunc
  | nilInput
  | noElement
  | emptySequence
  | negativeParam
  | nan
  | typeMismatch
  | user (n : Nat)
deriving DecidableEq, Repr

/-- The `queryable` struct (linq.go line 8): payload plus sticky error.
The `less` comparator field is omitted: it is only written by `OrderBy`,
which none of the verified claims touches.  A Go `nil` slice payload and an
empty payload are identified (the claims never distinguish them). -/
structure Queryable (α : Type) where
  values : List α
  err : Option Err
deriving Repr, DecidableEq

/-- `From` (linq.go lines 28-36): `none` models a Go `nil` input slice. -/
def From {α : Type} (input : Option (List α)) : Queryable α :=
  { values := input.getD []
    err := match input with
           | none => some Err.nilInput
           | some _ => none }

/-- `Results` (linq.go lines 38-40). -/
def Queryable.Results {α : Type} (q : Queryable α) : List α × Option Err :=
  (q.values, q.err)

/-- Loop body of `Where` (linq.go lines 52-61): `acc` is the accumulated
`r.values` (reversed); a callable error is returned together with the
elements accumulated so far, exactly as the Go `return r` does. -/
def whereLoop {α : Type} (f : α → Bool × Option Err) :
    List α → List α → List α × Option Err
  | acc, [] => (acc.reverse, none)
  | acc, x :: xs =>
    match f x with
    | (_, some e) => (acc.reverse, some e)
    | (ok, none) => whereLoop f (if ok then x :: acc else acc) xs

/-- `Where` (linq.go lines 42-63). -/
def Queryable.Where {α : Type} (q : Queryable α)
    (f : Option (α → Bool × Option Err)) : Queryable α :=
  match q.err with
  | some e => ⟨[], some e⟩
  | none =>
    match f with
    | none => ⟨[], some Err.nilFunc⟩
    | some f =>
      let (vs, e) := whereLoop f [] q.values
      ⟨vs, e⟩

/-- Loop body of `Select` (linq.go lines 75-82). -/
def selectLoop {α β : Type} (f : α → β × Option Err) :
    List α → List β → List β × Option Err
  | [], acc => (acc.reverse, none)
  | x :: xs, acc =>
    match f x with
    | (_, some e) => (acc.reverse, some e)
    | (val, none) => selectLoop f xs (val :: acc)

/-- `Select` (linq.go lines 65-84). -/
def Queryable.Select {α β : Type} (q : Queryable α)
    (f : Option (α → β × Option Err)) : Queryable β :=
  match q.err with
  | some e => ⟨[], some e⟩
  | none =>
    match f with
    | none => ⟨[], some Err.nilFunc⟩
    | some f =>
      let (vs, e) := selectLoop f q.values []
      ⟨vs, e⟩

/-- Insertion into the Go map-as-set idiom
`if _, ok := dict[v]; !ok { dict[v] = true }` (linq.go lines 107-111 and
analogues), with Go map iteration modelled as insertion order. -/
def insertNew {α : Type} [DecidableEq α] (s : List α) (v : α) : List α :=
  if v ∈ s then s else s ++ [v]

/-- The set of first occurrences of the values of `vs`, in insertion order:
the model of building a Go map-backed set from a slice. -/
def dedupKeys {α : Type} [DecidableEq α] (vs : List α) : List α :=
  vs.foldl insertNew []

/-- Inner loop of the predicate branch of `distinct` (linq.go lines
132-141): compare pivot `x` (`q.values[i]`) against every later element
`q.values[j]`, OR-ing a confirmed equivalence into the parallel
`included` flag list (missing flags read as `false`); the first callable
error aborts. -/
def markFlags {α : Type} (f : α → α → Bool × Option Err) (x : α) :
    List α → List Bool → Except Err (List Bool)
  | [], _ => Except.ok []
  | y :: ys, fls =>
    match f x y with
    | (_, some e) => Except.error e
    | (eq, none) =>
      match markFlags f x ys fls.tail with
      | Except.error e => Except.error e
      | Except.ok rest => Except.ok ((fls.headD false || eq) :: rest)

/-- Outer loop of the predicate branch of `distinct` (linq.go lines
128-143): the elements still to visit walk in step with their `included`
exclusion flags; a flagged head is skipped (Go `continue`), an unflagged
head is compared against the whole tail and then kept. -/
def distinctLoop {α : Type} (f : α → α → Bool × Option Err) :
    List α → List Bool → Except Err (List α)
  | [], _ => Except.ok []
  | x :: xs, fls =>
    if fls.headD false then distinctLoop f xs fls.tail
    else
      match markFlags f x xs fls.tail with
      | Except.error e => Except.error e
      | Except.ok fls' =>
        match distinctLoop f xs fls' with
        | Except.error e => Except.error e
        | Except.ok vs => Except.ok (x :: vs)

/-- `distinct` (linq.go lines 98-147): the `f = nil` branch deduplicates
through a Go map (modelled in insertion order); the predicate branch runs
the quadratic flag-based scan, and on a callable error returns the error
with a nil payload (`r.values` is never assigned on that path). -/
def Queryable.distinct {α : Type} [DecidableEq α] (q : Queryable α)
    (f : Option (α → α → Bool × Option Err)) : Queryable α :=
  match q.err with
  | some e => ⟨[], some e⟩
  | none =>
    match f with
    | none => ⟨dedupKeys q.values, none⟩
    | some f =>
      match distinctLoop f q.values [] with
      | Except.error e => ⟨[], some e⟩
      | Except.ok vs => ⟨vs, none⟩

/-- `Distinct` (linq.go lines 86-88). -/
def Queryable.Distinct {α : Type} [DecidableEq α] (q : Queryable α) :
    Queryable α :=
  q.distinct none

/-- `DistinctBy` (linq.go lines 90-96).  Note the order of checks in the
source: the nil-callable test precedes the delegation to `distinct`, which
is where the incoming-error test lives. -/
def Queryable.DistinctBy {α : Type} [DecidableEq α] (q : Queryable α)
    (f : Option (α → α → Bool × Option Err)) : Queryable α :=
  match f with
  | none => ⟨[], some Err.nilFunc⟩
  | some f => q.distinct (some f)

/-- `Union` (linq.go lines 149-177): both sequences poured into one
map-backed set; `none` models a Go `nil` argument slice. -/
def Queryable.Union {α : Type} [DecidableEq α] (q : Queryable α)
    (inp : Option (List α)) : Queryable α :=
  match q.err with
  | some e => ⟨[], some e⟩
  | none =>
    match inp with
    | none => ⟨[], some Err.nilInput⟩
    | some inp => ⟨(q.values ++ inp).foldl insertNew [], none⟩

/-- `Intersect` (linq.go lines 179-211): the source set loses each matched
value (`delete(set, v)`) while the intersection set gains it once. -/
def Queryable.Intersect {α : Type} [DecidableEq α] (q : Queryable α)
    (inp : Option (List α)) : Queryable α :=
  match q.err with
  | some e => ⟨[], some e⟩
  | none =>
    match inp with
    | none => ⟨[], some Err.nilInput⟩
    | some inp =>
      let step := fun (st : List α × List α) (v : α) =>
        if v ∈ st.1 then (st.1.filter (fun w => w ≠ v), insertNew st.2 v)
        else st
      ⟨(inp.foldl step (dedupKeys q.values, [])).2, none⟩

/-- `Except` (linq.go lines 213-239): source values into a map-backed set,
then each value of `inp` deleted from it. -/
def Queryable.Except {α : Type} [DecidableEq α] (q : Queryable α)
    (inp : Option (List α)) : Queryable α :=
  match q.err with
  | some e => ⟨[], some e⟩
  | none =>
    match inp with
    | none => ⟨[], some Err.nilInput⟩
    | some inp =>
      ⟨inp.foldl (fun s v => s.filter (fun w => w ≠ v)) (dedupKeys q.values),
       none⟩

/-- `Count` (linq.go lines 241-243). -/
def Queryable.Count {α : Type} (q : Queryable α) : Int × Option Err :=
  ((q.values.length : Int), q.err)

/-- `All` loop (linq.go lines 306-314): the accumulator is the named
return `all` (initialised `true`); on a callable error the source does
`err = e; return`, handing back the accumulator as it stands. -/
def allLoop {α : Type} (f : α → Bool × Option Err) :
    Bool → List α → Bool × Option Err
  | all, [] => (all, none)
  | all, x :: xs =>
    match f x with
    | (_, some e) => (all, some e)
    | (ok, none) => allLoop f (all && ok) xs

/-- `All` (linq.go lines 296-316): the zero value of the named `all`
return is `false` on the early error paths. -/
def Queryable.All {α : Type} (q : Queryable α)
    (f : Option (α → Bool × Option Err)) : Bool × Option Err :=
  match q.err with
  | some e => (false, some e)
  | none =>
    match f with
    | none => (false, some Err.nilFunc)
    | some f => allLoop f true q.values

/-- `ElementAt` (linq.go lines 336-351): `none` models the Go `nil`
zero value of the `elem` named return. -/
def Queryable.ElementAt {α : Type} (q : Queryable α) (i : Int) :
    Option α × Option Err :=
  match q.err with
  | some e => (none, some e)
  | none =>
    if i < 0 then (none, some Err.negativeParam)
    else if (q.values.length : Int) < i + 1 then (none, some Err.noElement)
    else (q.values.get? i.toNat, none)

/-- `ElementAtOrNil` (linq.go lines 353-366). -/
def Queryable.ElementAtOrNil {α : Type} (q : Queryable α) (i : Int) :
    Option α × Option Err :=
  match q.err with
  | some e => (none, some e)
  | none =>
    if i < 0 then (none, some Err.negativeParam)
    else if (q.values.length : Int) > i then (q.values.get? i.toNat, none)
    else (none, none)

/-- `First` (linq.go lines 368-379). -/
def Queryable.First {α : Type} (q : Queryable α) : Option α × Option Err :=
  match q.err with
  | some e => (none, some e)
  | none =>
    match q.values with
    | [] => (none, some Err.noElement)
    | x :: _ => (some x, none)

/-- `FirstOrNil` (linq.go lines 381-390). -/
def Queryable.FirstOrNil {α : Type} (q : Queryable α) :
    Option α × Option Err :=
  match q.err with
  | some e => (none, some e)
  | none =>
    match q.values with
    | [] => (none, none)
    | x :: _ => (some x, none)

/-- `Last` (linq.go lines 434-445). -/
def Queryable.Last {α : Type} (q : Queryable α) : Option α × Option Err :=
  match q.err with
  | some e => (none, some e)
  | none =>
    match q.values with
    | [] => (none, some Err.noElement)
    | _ :: _ => (q.values.get? (q.values.length - 1), none)

/-- `LastOrNil` (linq.go lines 447-456). -/
def Queryable.LastOrNil {α : Type} (q : Queryable α) :
    Option α × Option Err :=
  match q.err with
  | some e => (none, some e)
  | none =>
    match q.values with
    | [] => (none, none)
    | _ :: _ => (q.values.get? (q.values.length - 1), none)

/-- The copy loop of `Reverse` (linq.go lines 509-512): iteration `i`
writes `q.values[i]` to slot `c-1-i` counted from the end, i.e.
`revCopy xs n` is `[xs[n-1], xs[n-2], ..., xs[0]]`. -/
def revCopy {α : Type} (xs : List α) : Nat → List α
  | 0 => []
  | i + 1 =>
    match xs.get? i with
    | some v => v :: revCopy xs i
    | none => revCopy xs i

/-- `Reverse` (linq.go lines 501-514). -/
def Queryable.Reverse {α : Type} (q : Queryable α) : Queryable α :=
  match q.err with
  | some e => ⟨[], some e⟩
  | none => ⟨revCopy q.values q.values.length, none⟩

/-- The clamp applied by `Take` and `Skip` to their argument
(linq.go lines 521-526 and 545-550). -/
def clampLen {α : Type} (n : Int) (xs : List α) : Nat :=
  if n < 0 then 0
  else if n ≥ (xs.length : Int) then xs.length
  else n.toNat

/-- `Take` (linq.go lines 516-529). -/
def Queryable.Take {α : Type} (q : Queryable α) (n : Int) : Queryable α :=
  match q.err with
  | some e => ⟨[], some e⟩
  | none => ⟨q.values.take (clampLen n q.values), none⟩

/-- `Skip` (linq.go lines 540-553). -/
def Queryable.Skip {α : Type} (q : Queryable α) (n : Int) : Queryable α :=
  match q.err with
  | some e => ⟨[], some e⟩
  | none => ⟨q.values.drop (clampLen n q.values), none⟩

/-- Scan loop of `findWhileTerminationIndex` (linq.go lines 573-585). -/
def whileIndexLoop {α : Type} (f : α → Bool × Option Err) :
    Nat → List α → Nat × Option Err
  | n, [] => (n, none)
  | n, x :: xs =>
    match f x with
    | (_, some e) => (n, some e)
    | (true, none) => whileIndexLoop f (n + 1) xs
    | (false, none) => (n, none)

/-- `findWhileTerminationIndex` (linq.go lines 564-587). -/
def Queryable.findWhileTerminationIndex {α : Type} (q : Queryable α)
    (f : Option (α → Bool × Option Err)) : Nat × Option Err :=
  match q.err with
  | some e => (0, some e)
  | none =>
    match f with
    | none => (0, some Err.nilFunc)
    | some f => whileIndexLoop f 0 q.values

/-- `TakeWhile` (linq.go lines 531-538). -/
def Queryable.TakeWhile {α : Type} (q : Queryable α)
    (f : Option (α → Bool × Option Err)) : Queryable α :=
  match q.findWhileTerminationIndex f with
  | (_, some e) => ⟨[], some e⟩
  | (n, none) => q.Take (n : Int)

/-- `SkipWhile` (linq.go lines 555-562). -/
def Queryable.SkipWhile {α : Type} (q : Queryable α)
    (f : Option (α → Bool × Option Err)) : Queryable α :=
  match q.findWhileTerminationIndex f with
  | (_, some e) => ⟨[], some e⟩
  | (n, none) => q.Skip (n : Int)

/-- `Join` (linq.go lines 652-688).  The `innerKeyLookup` memo table caches
`innerKeySelector` per inner element value; with a pure selector the cached
key always equals the directly computed key, so the model applies the
selector directly. -/
def Queryable.Join {α β κ γ : Type} [DecidableEq κ] (q : Queryable α)
    (innerCollection : Option (List β))
    (outerKeySelector : Option (α → κ))
    (innerKeySelector : Option (β → κ))
    (resultSelector : Option (α → β → γ)) : Queryable γ :=
  match q.err with
  | some e => ⟨[], some e⟩
  | none =>
    match innerCollection with
    | none => ⟨[], some Err.nilInput⟩
    | some innerC =>
      match outerKeySelector, innerKeySelector, resultSelector with
      | some oks, some iks, some res =>
        ⟨q.values.flatMap (fun outer =>
           (innerC.filter (fun inner => iks inner = oks outer)).map
             (fun inner => res outer inner)), none⟩
      | _, _, _ => ⟨[], some Err.nilFunc⟩

/-- Lookup in the insertion-ordered association list modelling a Go map:
`v, ok := m[k]`. -/
def alookup {α β : Type} [DecidableEq α] (k : α) :
    List (α × β) → Option β
  | [] => none
  | p :: ps => if p.1 = k then some p.2 else alookup k ps

/-- Update-or-append on the insertion-ordered association list modelling
the Go `results` map of `GroupJoin`: `m[k] = v`. -/
def mapPut {α β : Type} [DecidableEq α] (m : List (α × β)) (k : α) (v : β) :
    List (α × β) :=
  if (alookup k m).isSome then
    m.map (fun p => if p.1 = k then (k, v) else p)
  else m ++ [(k, v)]

/-- One outer iteration of `GroupJoin` (linq.go lines 712-726): reset the
bucket for this outer value, then append every inner element whose
memoised key equals the outer key.  (As in `Join`, the pure inner-key memo
is applied directly.) -/
def groupJoinStep {α β κ : Type} [DecidableEq α] [DecidableEq κ]
    (oks : α → κ) (iks : β → κ) (innerC : List β)
    (m : List (α × List β)) (outer : α) : List (α × List β) :=
  let okey := oks outer
  innerC.foldl
    (fun m inner =>
      if iks inner = okey then
        mapPut m outer ((alookup outer m).getD [] ++ [inner])
      else m)
    (mapPut m outer [])

/-- `GroupJoin` (linq.go lines 690-737): the outer loop fills the
`results` map, then the result selector is applied to every entry in map
iteration order (modelled as insertion order). -/
def Queryable.GroupJoin {α β κ γ : Type} [DecidableEq α] [DecidableEq κ]
    (q : Queryable α)
    (innerCollection : Option (List β))
    (outerKeySelector : Option (α → κ))
    (innerKeySelector : Option (β → κ))
    (resultSelector : Option (α → List β → γ)) : Queryable γ :=
  match q.err with
  | some e => ⟨[], some e⟩
  | none =>
    match innerCollection with
    | none => ⟨[], some Err.nilInput⟩
    | some innerC =>
      match outerKeySelector, innerKeySelector, resultSelector with
      | some oks, some iks, some res =>
        let results := q.values.foldl (groupJoinStep oks iks innerC) []
        ⟨results.map (fun p => res p.1 p.2), none⟩
      | _, _, _ => ⟨[], some Err.nilFunc⟩

/-- `Range` (linq.go lines 740-750); Go `int` arithmetic modelled on ℤ
(the source comment marks overflow as unhandled). -/
def Range (start count : Int) : Queryable Int :=
  if count < 0 then ⟨[], some Err.negativeParam⟩
  else ⟨(List.range count.toNat).map (fun i => start + Int.ofNat i), none⟩

/-- Model of Go `interface{}` values for the numeric aggregations: one
constructor per dynamic type that `sum_` (linq.go lines 762-800) type-asserts
against, plus `gString` for a non-numeric element.  Machine integers are
carried as unbounded integers and the two float types as exact rationals:
the source marks overflow as unhandled and the verified claims involve only
exactly representable values. -/
inductive GoVal where
  | gInt (v : Int)
  | gUint (v : Int)
  | gFloat64 (v : ℚ)
  | gInt32 (v : Int)
  | gInt64 (v : Int)
  | gFloat32 (v : ℚ)
  | gInt8 (v : Int)
  | gInt16 (v : Int)
  | gUint64 (v : Int)
  | gUint32 (v : Int)
  | gUint16 (v : Int)
  | gUint8 (v : Int)
  | gString (s : String)
deriving DecidableEq, Repr

/-- The chain of type assertions of `sum_` (linq.go lines 770-796): each
supported numeric representation converts to the 64-bit float accumulator
(modelled as ℚ); every other value is non-numeric.  The assertion cases are
mutually exclusive, so the if/else cascade is a dispatch on the dynamic
type. -/
def numConv : GoVal → Option ℚ
  | GoVal.gInt v => some (v : ℚ)
  | GoVal.gUint v => some (v : ℚ)
  | GoVal.gFloat64 v => some v
  | GoVal.gInt32 v => some (v : ℚ)
  | GoVal.gInt64 v => some (v : ℚ)
  | GoVal.gFloat32 v => some v
  | GoVal.gInt8 v => some (v : ℚ)
  | GoVal.gInt16 v => some (v : ℚ)
  | GoVal.gUint64 v => some (v : ℚ)
  | GoVal.gUint32 v => some (v : ℚ)
  | GoVal.gUint16 v => some (v : ℚ)
  | GoVal.gUint8 v => some (v : ℚ)
  | GoVal.gString _ => none

/-- The accumulation loop of `sum_` (linq.go lines 766-798): a non-numeric
element returns the partial sum together with `ErrNan`. -/
def sumLoop : List GoVal → ℚ → ℚ × Option Err
  | [], s => (s, none)
  | v :: vs, s =>
    match numConv v with
    | some x => sumLoop vs (s + x)
    | none => (s, some Err.nan)

/-- `sum_` (linq.go lines 762-800). -/
def sum_ (vals : List GoVal) : ℚ × Option Err :=
  sumLoop vals 0

/-- `Sum` (linq.go lines 753-760). -/
def Queryable.Sum (q : Queryable GoVal) : ℚ × Option Err :=
  match q.err with
  | some e => (0, some e)
  | none => sum_ q.values

/-- `Average` (linq.go lines 803-817): fault check, then the empty check,
then `sum_`; on success the sum is divided by the element count. -/
def Queryable.Average (q : Queryable GoVal) : ℚ × Option Err :=
  match q.err with
  | some e => (0, some e)
  | none =>
    if q.values.length = 0 then (0, some Err.emptySequence)
    else
      match sum_ q.values with
      | (_, some e) => (0, some e)
      | (s, none) => (s / (q.values.length : ℚ), none)

/-- Modelled from the spec: `toInts` (called by `OrderInts`, linq.go line
595, defined outside the provided source file) — every element must pass
the int capability check (type assertion), otherwise the whole sort faults
with the type-mismatch error before any sorting happens. -/
def toInts : List GoVal → Except Err (List Int)
  | [] => Except.ok []
  | GoVal.gInt v :: vs =>
    match toInts vs with
    | Except.error e => Except.error e
    | Except.ok r => Except.ok (v :: r)
  | _ :: _ => Except.error Err.typeMismatch

/-- Modelled from the spec: `toStrings` (called by `OrderStrings`, linq.go
line 611, defined outside the provided source file) — string capability
check, faulting with type-mismatch on any non-string element. -/
def toStrings : List GoVal → Except Err (List String)
  | [] => Except.ok []
  | GoVal.gString s :: vs =>
    match toStrings vs with
    | Except.error e => Except.error e
    | Except.ok r => Except.ok (s :: r)
  | _ :: _ => Except.error Err.typeMismatch

/-- Modelled from the spec: `toFloat64s` (called by `OrderFloat64s`,
linq.go line 626, defined outside the provided source file) — float64
capability check, faulting with type-mismatch on any non-float64
element. -/
def toFloat64s : List GoVal → Except Err (List ℚ)
  | [] => Except.ok []
  | GoVal.gFloat64 v :: vs =>
    match toFloat64s vs with
    | Except.error e => Except.error e
    | Except.ok r => Except.ok (v :: r)
  | _ :: _ => Except.error Err.typeMismatch

/-- `OrderInts` (linq.go lines 589-604): coerce every element to an int,
sort ascending (`sort.Ints`), rewrap the sorted values as the payload. -/
def Queryable.OrderInts (q : Queryable GoVal) : Queryable GoVal :=
  match q.err with
  | some e => ⟨[], some e⟩
  | none =>
    match toInts q.values with
    | Except.error e => ⟨[], some e⟩
    | Except.ok vals =>
      ⟨(List.insertionSort (fun a b => a ≤ b) vals).map GoVal.gInt, none⟩

/-- `OrderStrings` (linq.go lines 606-619): string variant of the
type-specialized ascending sort (`sort.Strings`). -/
def Queryable.OrderStrings (q : Queryable GoVal) : Queryable GoVal :=
  match q.err with
  | some e => ⟨[], some e⟩
  | none =>
    match toStrings q.values with
    | Except.error e => ⟨[], some e⟩
    | Except.ok vals =>
      ⟨(List.insertionSort (fun a b => a ≤ b) vals).map GoVal.gString, none⟩

/-- `OrderFloat64s` (linq.go lines 621-634): float64 variant of the
type-specialized ascending sort (`sort.Float64s`). -/
def Queryable.OrderFloat64s (q : Queryable GoVal) : Queryable GoVal :=
  match q.err with
  | some e => ⟨[], some e⟩
  | none =>
    match toFloat64s q.values with
    | Except.error e => ⟨[], some e⟩
    | Except.ok vals =>
      ⟨(List.insertionSort (fun a b => a ≤ b) vals).map GoVal.gFloat64, none⟩

/-- `OrderBy` (linq.go lines 636-650): copies the payload and sorts it
with the supplied "this is ordered before that" comparator.  The source
stores the comparator in the result's `less` field and immediately sorts
with it through `sort.Sort`; that field is never read again by any other
operation, so the model applies the comparator to the sort directly
instead of carrying it in the structure. -/
def Queryable.OrderBy {α : Type} (q : Queryable α)
    (less : Option (α → α → Bool)) : Queryable α :=
  match q.err with
  | some e => ⟨[], some e⟩
  | none =>
    match less with
    | none => ⟨[], some Err.nilFunc⟩
    | some less =>
      ⟨List.insertionSort (fun a b => less a b = true) q.values, none⟩

theorem revCopy_eq_reverse_take {α : Type} (xs : List α) :
    ∀ n : Nat, revCopy xs n = (xs.take n).reverse := by
  intro n
  induction n with
  | zero => simp [revCopy]
  | succ n ih =>
    rw [revCopy, List.take_succ, List.reverse_append, List.get?_eq_getElem?, ih]
    cases h : xs[n]? <;> simp [h]

theorem clampLen_eq_min {α : Type} (n : Int) (xs : List α) (hn : 0 ≤ n) :
    clampLen n xs = min n.toNat xs.length := by
  unfold clampLen
  split
  · omega
  · split <;> omega

theorem allLoop_clean {α : Type} (f : α → Bool × Option Err) :
    ∀ (xs : List α) (b : Bool), (∀ x ∈ xs, (f x).2 = none) →
      allLoop f b xs = (b && xs.all (fun x => (f x).1), none) := by
  intro xs
  induction xs with
  | nil => intro b _; simp [allLoop]
  | cons x xs ih =>
    intro b hcl
    rcases hf : f x with ⟨ok, oe⟩
    have : oe = none := by
      have := hcl x (by simp)
      rw [hf] at this; exact this
    subst this
    rw [allLoop, hf]
    simp only
    rw [ih (b && ok) (fun y hy => hcl y (by simp [hy]))]
    simp [hf, Bool.and_assoc]

theorem allLoop_error {α : Type} (f : α → Bool × Option Err) :
    ∀ (l : List α) (x : α) (r : List α) (b : Bool) (e : Err),
      (∀ y ∈ l, (f y).2 = none) → (f x).2 = some e →
      (allLoop f b (l ++ x :: r)).2 = some e := by
  intro l
  induction l with
  | nil =>
    intro x r b e _ hx
    rcases hf : f x with ⟨ok, oe⟩
    rw [hf] at hx
    simp only at hx
    subst hx
    simp [allLoop, hf]
  | cons y l ih =>
    intro x r b e hcl hx
    rcases hf : f y with ⟨ok, oe⟩
    have : oe = none := by
      have := hcl y (by simp)
      rw [hf] at this; exact this
    subst this
    rw [List.cons_append, allLoop, hf]
    exact ih x r (b && ok) e (fun z hz => hcl z (by simp [hz])) hx

/-! ## Claim theorems -/

/-- C9: on an unfaulted pipeline `Reverse` succeeds and its payload is the
source payload in reverse order; applying `Reverse` twice restores the
original payload. -/
theorem reverse_spec {α : Type} (q : Queryable α) (h : q.err = none) :
    q.Reverse = ⟨q.values.reverse, none⟩ ∧
    q.Reverse.Reverse = ⟨q.values, none⟩ := by
  have h1 : q.Reverse = ⟨q.values.reverse, none⟩ := by
    unfold Queryable.Reverse
    rw [h]
    simp [revCopy_eq_reverse_take]
  refine ⟨h1, ?_⟩
  rw [h1]
  unfold Queryable.Reverse
  simp only [revCopy_eq_reverse_take]
  rw [List.take_length, List.reverse_reverse]

/-- Witness for C9 at a concrete pipeline. -/
theorem reverse_spec_witness :
    (⟨[1, 2, 3], none⟩ : Queryable Int).Reverse = ⟨[3, 2, 1], none⟩ :=
  ((reverse_spec (⟨[1, 2, 3], none⟩ : Queryable Int) rfl).1).trans (by decide)

/-- C5: on an unfaulted pipeline `Take`/`Skip` never fault (out-of-range
arguments are clamped); for `n ≥ 0` the payload of `Take n` has length
`min n (length S)` (hence that `Count`), and `Take n` concatenated with
`Skip n` restores the source payload. -/
theorem take_skip_spec {α : Type} (q : Queryable α) (h : q.err = none) :
    (∀ n : Int, (q.Take n).err = none ∧ (q.Skip n).err = none) ∧
    (∀ n : Int, 0 ≤ n →
      ((q.Take n).values.length : Int) = min n (q.values.length : Int) ∧
      (q.Take n).Count = (min n (q.values.length : Int), none) ∧
      (q.Take n).values ++ (q.Skip n).values = q.values) := by
  constructor
  · intro n
    unfold Queryable.Take Queryable.Skip
    rw [h]
    exact ⟨rfl, rfl⟩
  · intro n hn
    have hlen : ((q.Take n).values.length : Int) = min n (q.values.length : Int) := by
      unfold Queryable.Take
      rw [h]
      simp only [List.length_take]
      rw [clampLen_eq_min n q.values hn]
      omega
    refine ⟨hlen, ?_, ?_⟩
    · unfold Queryable.Count
      rw [hlen]
      have : (q.Take n).err = none := by
        unfold Queryable.Take; rw [h]
      rw [this]
    · unfold Queryable.Take Queryable.Skip
      rw [h]
      exact List.take_append_drop _ _

/-- Witness for C5 at a concrete pipeline and index. -/
theorem take_skip_spec_witness :
    ((⟨[1, 2, 3], none⟩ : Queryable Int).Take 2).values ++
      ((⟨[1, 2, 3], none⟩ : Queryable Int).Skip 2).values = [1, 2, 3] :=
  (((take_skip_spec (⟨[1, 2, 3], none⟩ : Queryable Int) rfl).2 2
    (by decide)).2).2

/-- C4: on an unfaulted pipeline, `First`/`Last`/`ElementAt` fault with the
no-element fault on an empty sequence or an index past the end, while
`FirstOrNil`/`LastOrNil`/`ElementAtOrNil` return an absent value with no
fault on those same inputs; `ElementAt` faults with the negative-parameter
fault on a negative index. -/
theorem element_access_spec {α : Type} (q : Queryable α) (h : q.err = none) :
    (q.values = [] →
      q.First = (none, some Err.noElement) ∧
      q.Last = (none, some Err.noElement) ∧
      q.FirstOrNil = (none, none) ∧
      q.LastOrNil = (none, none)) ∧
    (∀ i : Int, 0 ≤ i → (q.values.length : Int) ≤ i →
      q.ElementAt i = (none, some Err.noElement) ∧
      q.ElementAtOrNil i = (none, none)) ∧
    (∀ i : Int, i < 0 → q.ElementAt i = (none, some Err.negativeParam)) := by
  refine ⟨?_, ?_, ?_⟩
  · intro hv
    unfold Queryable.First Queryable.Last Queryable.FirstOrNil
      Queryable.LastOrNil
    rw [h, hv]
    exact ⟨rfl, rfl, rfl, rfl⟩
  · intro i h0 hlen
    unfold Queryable.ElementAt Queryable.ElementAtOrNil
    rw [h]
    constructor
    · rw [if_neg (by omega), if_pos (by omega)]
    · rw [if_neg (by omega), if_neg (by omega)]
  · intro i hi
    unfold Queryable.ElementAt
    rw [h, if_pos hi]

/-- Witness for C4 at a concrete empty pipeline and concrete indices. -/
theorem element_access_spec_witness :
    (⟨[], none⟩ : Queryable Int).First = (none, some Err.noElement) ∧
    (⟨[1, 2], none⟩ : Queryable Int).ElementAtOrNil 5 = (none, none) ∧
    (⟨[1, 2], none⟩ : Queryable Int).ElementAt (-1) =
      (none, some Err.negativeParam) :=
  ⟨((element_access_spec (⟨[], none⟩ : Queryable Int) rfl).1 rfl).1,
   (((element_access_spec (⟨[1, 2], none⟩ : Queryable Int) rfl).2.1 5
      (by decide) (by decide)).2),
   ((element_access_spec (⟨[1, 2], none⟩ : Queryable Int) rfl).2.2 (-1)
      (by decide))⟩

/-- C6: `Range start count` faults with the negative-parameter fault
exactly when `count < 0`, and otherwise succeeds with exactly `count`
consecutive integers beginning at `start`. -/
theorem range_spec (start count : Int) :
    (count < 0 → Range start count = ⟨[], some Err.negativeParam⟩) ∧
    (0 ≤ count →
      (Range start count).err = none ∧
      ((Range start count).values.length : Int) = count ∧
      ∀ i : Nat, (i : Int) < count →
        (Range start count).values.get? i = some (start + (i : Int))) := by
  constructor
  · intro hneg
    unfold Range
    rw [if_pos hneg]
  · intro hpos
    unfold Range
    rw [if_neg (by omega)]
    refine ⟨rfl, by rw [List.length_map, List.length_range]; omega, ?_⟩
    intro i hi
    have hi' : i < count.toNat := by omega
    rw [List.get?_eq_getElem?, List.getElem?_map, List.getElem?_range hi']
    rfl

/-- Witness for C6: `Range 0 5` is `[0,1,2,3,4]` elementwise and
`Range 7 (-1)` faults with the negative-parameter fault. -/
theorem range_spec_witness :
    Range 7 (-1) = ⟨[], some Err.negativeParam⟩ ∧
    (Range 0 5).err = none ∧
    (Range 0 5).values.get? 2 = some 2 ∧
    (Range 0 5).values = [0, 1, 2, 3, 4] :=
  ⟨(range_spec 7 (-1)).1 (by decide),
   ((range_spec 0 5).2 (by decide)).1,
   by
     have := (((range_spec 0 5).2 (by decide)).2.2) 2 (by decide)
     simpa using this,
   by decide⟩

/-- C10: on an unfaulted pipeline `All` keeps evaluating the predicate
after a `false` result: if the predicate faults at some element and did
not fault earlier, `All` reports that fault (regardless of earlier
boolean results); when the predicate never faults, `All` returns the
conjunction over every element with no fault. -/
theorem all_spec {α : Type} (q : Queryable α) (f : α → Bool × Option Err)
    (h : q.err = none) :
    (∀ (l : List α) (x : α) (r : List α) (e : Err),
      q.values = l ++ x :: r → (∀ y ∈ l, (f y).2 = none) →
      (f x).2 = some e → (q.All (some f)).2 = some e) ∧
    ((∀ x ∈ q.values, (f x).2 = none) →
      q.All (some f) = (q.values.all (fun x => (f x).1), none)) := by
  constructor
  · intro l x r e hv hl hx
    unfold Queryable.All
    rw [h]
    simp only
    rw [hv]
    exact allLoop_error f l x r true e hl hx
  · intro hcl
    unfold Queryable.All
    rw [h]
    simp only
    rw [allLoop_clean f q.values true hcl]
    simp

/-- Witness for C10: the predicate is `false` (without fault) on the first
element and faults on the second; `All` reports the fault. -/
theorem all_spec_witness :
    ((⟨[1, 2], none⟩ : Queryable Int).All
      (some (fun x => (false, if x = 2 then some (Err.user 0) else none)))).2 =
      some (Err.user 0) :=
  (all_spec (⟨[1, 2], none⟩ : Queryable Int)
      (fun x => (false, if x = 2 then some (Err.user 0) else none)) rfl).1
    [1] 2 [] (Err.user 0) rfl (by intro y hy; simp at hy; simp [hy])
    (by simp)

/-- C1 (amended): on a pipeline already carrying a fault, every
stage-producing operation except `DistinctBy`-with-a-nil-callable —
filtering, projection, the set operations, `Reverse`, `Take`/`Skip` and
their While variants, the joins, and the four ordering operations —
returns a pipeline carrying that identical fault with an empty payload,
and no caller-supplied callable influences the result (the conjuncts hold
for every callable argument, including the absent one).  `DistinctBy`
checks its callable for nil before the incoming fault: with a nil
callable it returns the nil-callable fault instead of the incoming
one. -/
theorem fault_propagation_spec {α β κ γ : Type} [DecidableEq α]
    [DecidableEq κ] (q : Queryable α) (e : Err) (h : q.err = some e) :
    (∀ f, q.Where f = ⟨[], some e⟩) ∧
    (∀ f : Option (α → β × Option Err), q.Select f = ⟨[], some e⟩) ∧
    (q.Distinct = ⟨[], some e⟩) ∧
    (∀ f, q.DistinctBy (some f) = ⟨[], some e⟩) ∧
    (q.DistinctBy none = ⟨[], some Err.nilFunc⟩) ∧
    (∀ inp, q.Union inp = ⟨[], some e⟩) ∧
    (∀ inp, q.Intersect inp = ⟨[], some e⟩) ∧
    (∀ inp, q.Except inp = ⟨[], some e⟩) ∧
    (q.Reverse = ⟨[], some e⟩) ∧
    (∀ n, q.Take n = ⟨[], some e⟩) ∧
    (∀ n, q.Skip n = ⟨[], some e⟩) ∧
    (∀ f, q.TakeWhile f = ⟨[], some e⟩) ∧
    (∀ f, q.SkipWhile f = ⟨[], some e⟩) ∧
    (∀ (ic : Option (List β)) (oks : Option (α → κ)) (iks : Option (β → κ))
      (rs : Option (α → β → γ)),
      q.Join ic oks iks rs = (⟨[], some e⟩ : Queryable γ)) ∧
    (∀ (ic : Option (List β)) (oks : Option (α → κ)) (iks : Option (β → κ))
      (rs : Option (α → List β → γ)),
      q.GroupJoin ic oks iks rs = (⟨[], some e⟩ : Queryable γ)) ∧
    (∀ qv : Queryable GoVal, qv.err = some e →
      qv.OrderInts = ⟨[], some e⟩ ∧
      qv.OrderStrings = ⟨[], some e⟩ ∧
      qv.OrderFloat64s = ⟨[], some e⟩) ∧
    (∀ less, q.OrderBy less = ⟨[], some e⟩) := by
  refine ⟨?_, ?_, ?_, ?_, ?_, ?_, ?_, ?_, ?_, ?_, ?_, ?_, ?_, ?_, ?_, ?_,
    ?_⟩
  · intro f; unfold Queryable.Where; rw [h]
  · intro f; unfold Queryable.Select; rw [h]
  · unfold Queryable.Distinct Queryable.distinct; rw [h]
  · intro f; unfold Queryable.DistinctBy Queryable.distinct; rw [h]
  · unfold Queryable.DistinctBy; rfl
  · intro inp; unfold Queryable.Union; rw [h]
  · intro inp; unfold Queryable.Intersect; rw [h]
  · intro inp; unfold Queryable.Except; rw [h]
  · unfold Queryable.Reverse; rw [h]
  · intro n; unfold Queryable.Take; rw [h]
  · intro n; unfold Queryable.Skip; rw [h]
  · intro f
    unfold Queryable.TakeWhile Queryable.findWhileTerminationIndex
    rw [h]
  · intro f
    unfold Queryable.SkipWhile Queryable.findWhileTerminationIndex
    rw [h]
  · intro ic oks iks rs; unfold Queryable.Join; rw [h]
  · intro ic oks iks rs; unfold Queryable.GroupJoin; rw [h]
  · intro qv hv
    refine ⟨?_, ?_, ?_⟩
    · unfold Queryable.OrderInts; rw [hv]
    · unfold Queryable.OrderStrings; rw [hv]
    · unfold Queryable.OrderFloat64s; rw [hv]
  · intro less; unfold Queryable.OrderBy; rw [h]

/-- Witness for C1 at a concretely faulted pipeline: the callables passed
here would fault with `user 9` if ever invoked, yet the incoming fault is
what every operation returns. -/
theorem fault_propagation_spec_witness :
    ((From (none : Option (List Int))).Where
      (some (fun _ => (true, some (Err.user 9)))) =
        ⟨[], some Err.nilInput⟩) ∧
    ((From (none : Option (List Int))).Take 2 = ⟨[], some Err.nilInput⟩) ∧
    ((From (none : Option (List Int))).GroupJoin (some [1])
      (some (fun x : Int => x)) (some (fun x : Int => x))
      (some (fun (x : Int) (_ : List Int) => x)) =
        ⟨[], some Err.nilInput⟩) ∧
    ((From (none : Option (List GoVal))).OrderInts =
        ⟨[], some Err.nilInput⟩) ∧
    ((From (none : Option (List Int))).OrderBy
      (some (fun a b => a < b)) = ⟨[], some Err.nilInput⟩) := by
  obtain ⟨hw, _, _, _, _, _, _, _, _, htake, _, _, _, _, hgjoin, hord,
      hob⟩ :=
    fault_propagation_spec (β := Int) (κ := Int) (γ := Int)
      (From (none : Option (List Int))) Err.nilInput rfl
  exact ⟨hw _, htake 2, hgjoin _ _ _ _,
    (hord (From (none : Option (List GoVal))) rfl).1, hob _⟩

/-- C1 counterexample: `DistinctBy` with a nil callable on a pipeline
already faulted with the nil-input fault returns the nil-callable fault,
not the identical incoming fault that the claim requires. -/
theorem fault_propagation_counterexample :
    (From (none : Option (List Int))).err = some Err.nilInput ∧
    ((From (none : Option (List Int))).DistinctBy none).err =
      some Err.nilFunc ∧
    some Err.nilFunc ≠ some Err.nilInput :=
  ⟨rfl, rfl, by decide⟩

theorem mem_insertNew {α : Type} [DecidableEq α] (s : List α) (v x : α) :
    x ∈ insertNew s v ↔ x ∈ s ∨ x = v := by
  unfold insertNew
  split
  · rename_i hv
    constructor
    · exact fun hx => Or.inl hx
    · rintro (hx | rfl)
      · exact hx
      · exact hv
  · simp

theorem mem_foldl_insertNew {α : Type} [DecidableEq α] (x : α) :
    ∀ (vs s : List α), x ∈ vs.foldl insertNew s ↔ x ∈ s ∨ x ∈ vs := by
  intro vs
  induction vs with
  | nil => simp
  | cons v vs ih =>
    intro s
    rw [List.foldl_cons, ih (insertNew s v), mem_insertNew]
    simp only [List.mem_cons]
    tauto

theorem nodup_insertNew {α : Type} [DecidableEq α] (s : List α) (v : α)
    (h : s.Nodup) : (insertNew s v).Nodup := by
  unfold insertNew
  split
  · exact h
  · rename_i hv
    simpa [List.nodup_append, hv] using h

theorem nodup_foldl_insertNew {α : Type} [DecidableEq α] :
    ∀ (vs s : List α), s.Nodup → (vs.foldl insertNew s).Nodup := by
  intro vs
  induction vs with
  | nil => exact fun s h => h
  | cons v vs ih =>
    intro s h
    exact ih (insertNew s v) (nodup_insertNew s v h)

theorem mem_dedupKeys {α : Type} [DecidableEq α] (vs : List α) (x : α) :
    x ∈ dedupKeys vs ↔ x ∈ vs := by
  unfold dedupKeys
  rw [mem_foldl_insertNew]
  simp

theorem nodup_dedupKeys {α : Type} [DecidableEq α] (vs : List α) :
    (dedupKeys vs).Nodup :=
  nodup_foldl_insertNew vs [] List.nodup_nil

theorem mem_foldl_delete {α : Type} [DecidableEq α] (x : α) :
    ∀ (bs s : List α),
      x ∈ bs.foldl (fun s v => s.filter (fun w => w ≠ v)) s ↔
        x ∈ s ∧ x ∉ bs := by
  intro bs
  induction bs with
  | nil => simp
  | cons b bs ih =>
    intro s
    rw [List.foldl_cons, ih (s.filter (fun w => w ≠ b))]
    simp only [List.mem_filter, List.mem_cons, decide_eq_true_eq]
    tauto

theorem nodup_foldl_delete {α : Type} [DecidableEq α] :
    ∀ (bs s : List α), s.Nodup →
      (bs.foldl (fun s v => s.filter (fun w => w ≠ v)) s).Nodup := by
  intro bs
  induction bs with
  | nil => exact fun s h => h
  | cons b bs ih =>
    intro s h
    exact ih (s.filter (fun w => w ≠ b)) (h.filter _)

/-- C7: on an unfaulted pipeline, `Except` faults with the nil-input fault
exactly on an absent other sequence; with a present one it never faults,
its payload holds no duplicates, and its members are exactly the source
values that do not occur in the other sequence (the set difference). -/
theorem except_spec {α : Type} [DecidableEq α] (q : Queryable α)
    (h : q.err = none) :
    (q.Except none = ⟨[], some Err.nilInput⟩) ∧
    (∀ b : List α,
      (q.Except (some b)).err = none ∧
      (q.Except (some b)).values.Nodup ∧
      ∀ x, x ∈ (q.Except (some b)).values ↔ x ∈ q.values ∧ x ∉ b) := by
  constructor
  · unfold Queryable.Except
    rw [h]
  · intro b
    unfold Queryable.Except
    rw [h]
    refine ⟨rfl, ?_, ?_⟩
    · exact nodup_foldl_delete b _ (nodup_dedupKeys q.values)
    · intro x
      rw [mem_foldl_delete, mem_dedupKeys]

/-- Witness for C7 at a concrete pipeline and other sequence. -/
theorem except_spec_witness :
    ((⟨[1, 2, 2, 3], none⟩ : Queryable Int).Except (some [2, 4])).err =
      none ∧
    (1 ∈ ((⟨[1, 2, 2, 3], none⟩ : Queryable Int).Except (some [2, 4])).values
      ↔ 1 ∈ [1, 2, 2, 3] ∧ 1 ∉ [2, 4]) ∧
    (⟨[1, 2, 2, 3], none⟩ : Queryable Int).Except none =
      ⟨[], some Err.nilInput⟩ :=
  ⟨((except_spec (⟨[1, 2, 2, 3], none⟩ : Queryable Int) rfl).2 [2, 4]).1,
   by
     have hmem := ((except_spec (⟨[1, 2, 2, 3], none⟩ : Queryable Int)
       rfl).2 [2, 4]).2.2 1
     simpa using hmem,
   (except_spec (⟨[1, 2, 2, 3], none⟩ : Queryable Int) rfl).1⟩

theorem sumLoop_clean :
    ∀ (vs : List GoVal) (s : ℚ), (∀ v ∈ vs, (numConv v).isSome) →
      (sumLoop vs s).2 = none := by
  intro vs
  induction vs with
  | nil => intro s _; rfl
  | cons v vs ih =>
    intro s hcl
    have hv := hcl v (by simp)
    rcases hc : numConv v with _ | x
    · rw [hc] at hv; simp at hv
    · rw [sumLoop, hc]
      exact ih (s + x) (fun w hw => hcl w (by simp [hw]))

theorem sumLoop_nan :
    ∀ (vs : List GoVal) (s : ℚ), (∃ v ∈ vs, numConv v = none) →
      (sumLoop vs s).2 = some Err.nan := by
  intro vs
  induction vs with
  | nil => intro s h; simp at h
  | cons v vs ih =>
    intro s h
    rcases hc : numConv v with _ | x
    · rw [sumLoop, hc]
    · rw [sumLoop, hc]
      simp only
      rcases h with ⟨w, hw, hwn⟩
      rcases List.mem_cons.mp hw with rfl | hw'
      · rw [hc] at hwn; simp at hwn
      · exact ih (s + x) ⟨w, hw', hwn⟩

/-- C8: on an unfaulted pipeline, `Sum` and `Average` fault with the
non-numeric fault exactly when some element is not a supported numeric
representation; `Average` faults with the empty-sequence fault on an empty
payload, and on success equals the sum divided by the element count. -/
theorem sum_average_spec (q : Queryable GoVal) (h : q.err = none) :
    ((∀ v ∈ q.values, (numConv v).isSome) → (q.Sum).2 = none) ∧
    ((∃ v ∈ q.values, numConv v = none) →
      (q.Sum).2 = some Err.nan ∧ (q.Average).2 = some Err.nan) ∧
    (q.values = [] → q.Average = (0, some Err.emptySequence)) ∧
    (q.values ≠ [] → (∀ v ∈ q.values, (numConv v).isSome) →
      (q.Average).2 = none ∧
      (q.Average).1 = (q.Sum).1 / (q.values.length : ℚ)) := by
  refine ⟨?_, ?_, ?_, ?_⟩
  · intro hcl
    unfold Queryable.Sum
    rw [h]
    exact sumLoop_clean q.values 0 hcl
  · intro hex
    have hne : q.values ≠ [] := by
      rcases hex with ⟨v, hv, _⟩
      intro he
      rw [he] at hv
      simp at hv
    have hnan : (sum_ q.values).2 = some Err.nan :=
      sumLoop_nan q.values 0 hex
    constructor
    · unfold Queryable.Sum
      rw [h]
      exact hnan
    · unfold Queryable.Average
      rw [h]
      simp only
      rw [if_neg (by simpa using hne)]
      rcases hs : sum_ q.values with ⟨s, oe⟩
      rw [hs] at hnan
      simp only at hnan
      subst hnan
      rfl
  · intro hv
    unfold Queryable.Average
    rw [h]
    simp only
    rw [if_pos (by simp [hv])]
  · intro hne hcl
    have hok : (sum_ q.values).2 = none := sumLoop_clean q.values 0 hcl
    rcases hs : sum_ q.values with ⟨s, oe⟩
    rw [hs] at hok
    simp only at hok
    subst hok
    have havg : q.Average = (s / (q.values.length : ℚ), none) := by
      unfold Queryable.Average
      rw [h]
      simp only
      rw [if_neg (by simpa using hne), hs]
    have hsum : q.Sum = (s, none) := by
      unfold Queryable.Sum
      rw [h]
      exact hs
    rw [havg, hsum]
    exact ⟨rfl, rfl⟩

/-- Witness for C8: `Sum` over `[1, 2.5, int32(3)]` is `6.5` with no
fault, and `Sum` over `["a"]` faults with the non-numeric fault. -/
theorem sum_average_spec_witness :
    (Queryable.Sum ⟨[GoVal.gInt 1, GoVal.gFloat64 (5 / 2), GoVal.gInt32 3],
      none⟩).2 = none ∧
    Queryable.Sum ⟨[GoVal.gInt 1, GoVal.gFloat64 (5 / 2), GoVal.gInt32 3],
      none⟩ = (13 / 2, none) ∧
    (Queryable.Sum ⟨[GoVal.gString "a"], none⟩).2 = some Err.nan ∧
    Queryable.Average ⟨[], none⟩ = (0, some Err.emptySequence) :=
  ⟨(sum_average_spec ⟨[GoVal.gInt 1, GoVal.gFloat64 (5 / 2),
      GoVal.gInt32 3], none⟩ rfl).1 (by decide),
   by
     show sum_ [GoVal.gInt 1, GoVal.gFloat64 (5 / 2), GoVal.gInt32 3] =
       (13 / 2, none)
     simp only [sum_, sumLoop, numConv]
     norm_num,
   ((sum_average_spec ⟨[GoVal.gString "a"], none⟩ rfl).2.1
      ⟨GoVal.gString "a", by decide⟩).1,
   (sum_average_spec ⟨[], none⟩ rfl).2.2.1 rfl⟩

theorem alookup_map_upd {α β : Type} [DecidableEq α] (k : α) (v : β) :
    ∀ m : List (α × β), (alookup k m).isSome →
      alookup k (m.map (fun p => if p.1 = k then (k, v) else p)) = some v := by
  intro m
  induction m with
  | nil => intro h; simp [alookup] at h
  | cons p ps ih =>
    intro h
    by_cases hp : p.1 = k
    · simp [alookup, hp]
    · rw [alookup] at h
      rw [if_neg hp] at h
      simp only [List.map_cons]
      rw [if_neg hp, alookup, if_neg hp]
      exact ih h

theorem alookup_append_single {α β : Type} [DecidableEq α] (k : α) (v : β) :
    ∀ m : List (α × β), alookup k m = none →
      alookup k (m ++ [(k, v)]) = some v := by
  intro m
  induction m with
  | nil => intro _; simp [alookup]
  | cons p ps ih =>
    intro h
    rw [alookup] at h
    by_cases hp : p.1 = k
    · rw [if_pos hp] at h
      exact Option.noConfusion h
    · rw [if_neg hp] at h
      rw [List.cons_append, alookup, if_neg hp]
      exact ih h

theorem alookup_mapPut {α β : Type} [DecidableEq α] (m : List (α × β))
    (k : α) (v : β) : alookup k (mapPut m k v) = some v := by
  unfold mapPut
  by_cases hs : (alookup k m).isSome
  · rw [if_pos hs]
    exact alookup_map_upd k v m hs
  · rw [if_neg hs]
    exact alookup_append_single k v m (Option.not_isSome_iff_eq_none.mp hs)

theorem map_upd_of_none {α β : Type} [DecidableEq α] (k : α) (v : β) :
    ∀ m : List (α × β), alookup k m = none →
      m.map (fun p => if p.1 = k then (k, v) else p) = m := by
  intro m
  induction m with
  | nil => intro _; rfl
  | cons p ps ih =>
    intro h
    rw [alookup] at h
    by_cases hp : p.1 = k
    · rw [if_pos hp] at h
      exact Option.noConfusion h
    · rw [if_neg hp] at h
      simp only [List.map_cons]
      rw [if_neg hp, ih h]

theorem mapPut_pos {α β : Type} [DecidableEq α] (m : List (α × β))
    (k : α) (v : β) (h : (alookup k m).isSome) :
    mapPut m k v = m.map (fun p => if p.1 = k then (k, v) else p) := by
  unfold mapPut
  rw [if_pos h]

theorem mapPut_neg {α β : Type} [DecidableEq α] (m : List (α × β))
    (k : α) (v : β) (h : alookup k m = none) :
    mapPut m k v = m ++ [(k, v)] := by
  unfold mapPut
  rw [if_neg (by simp [h])]

theorem mapPut_mapPut {α β : Type} [DecidableEq α] (m : List (α × β))
    (k : α) (v w : β) : mapPut (mapPut m k v) k w = mapPut m k w := by
  have hsome : (alookup k (mapPut m k v)).isSome := by
    rw [alookup_mapPut]
    rfl
  by_cases hs : (alookup k m).isSome
  · rw [mapPut_pos _ _ _ hsome, mapPut_pos _ _ _ hs, mapPut_pos _ _ _ hs,
      List.map_map]
    apply List.map_congr_left
    intro p _
    by_cases hp : p.1 = k
    · simp [Function.comp, hp]
    · simp [Function.comp, hp]
  · have hn := Option.not_isSome_iff_eq_none.mp hs
    rw [mapPut_pos _ _ _ hsome, mapPut_neg _ _ _ hn, mapPut_neg _ _ _ hn,
      List.map_append, map_upd_of_none k w m hn]
    simp

theorem alookup_map_pure {α β' : Type} [DecidableEq α] (g : α → β') (k : α) :
    ∀ l : List α,
      alookup k (l.map (fun o => (o, g o))) =
        if k ∈ l then some (g k) else none := by
  intro l
  induction l with
  | nil => simp [alookup]
  | cons a l ih =>
    simp only [List.map_cons, alookup]
    by_cases ha : a = k
    · subst ha
      simp
    · rw [if_neg ha, ih]
      by_cases hk : k ∈ l
      · rw [if_pos hk, if_pos (by simp [hk])]
      · rw [if_neg hk, if_neg ?_]
        simp only [List.mem_cons]
        rintro (h | h)
        · exact ha h.symm
        · exact hk h

theorem foldl_bucket_fill {α β : Type} [DecidableEq α] (o : α)
    (P : β → Prop) [DecidablePred P] :
    ∀ (l : List β) (m : List (α × List β)) (acc : List β),
      l.foldl
        (fun m i =>
          if P i then mapPut m o ((alookup o m).getD [] ++ [i]) else m)
        (mapPut m o acc) =
      mapPut m o (acc ++ l.filter (fun i => decide (P i))) := by
  intro l
  induction l with
  | nil =>
    intro m acc
    rw [List.foldl_nil, List.filter_nil, List.append_nil]
  | cons i l ih =>
    intro m acc
    rw [List.foldl_cons, List.filter_cons]
    by_cases hp : P i
    · rw [if_pos hp, alookup_mapPut, Option.getD_some, mapPut_mapPut,
        ih m (acc ++ [i]), if_pos (by simpa using hp), List.append_assoc,
        List.singleton_append]
    · rw [if_neg hp, ih m acc, if_neg (by simpa using hp)]

theorem groupJoinStep_eq {α β κ : Type} [DecidableEq α] [DecidableEq κ]
    (oks : α → κ) (iks : β → κ) (innerC : List β)
    (m : List (α × List β)) (outer : α) :
    groupJoinStep oks iks innerC m outer =
      mapPut m outer (innerC.filter (fun i => iks i = oks outer)) := by
  unfold groupJoinStep
  have := foldl_bucket_fill outer (fun i => iks i = oks outer) innerC m []
  simpa using this

theorem dedupKeys_append_single {α : Type} [DecidableEq α] (ps : List α)
    (o : α) : dedupKeys (ps ++ [o]) = insertNew (dedupKeys ps) o := by
  unfold dedupKeys
  rw [List.foldl_append]
  rfl

theorem mapPut_pure_step {α β' : Type} [DecidableEq α] (g : α → β')
    (ps : List α) (o : α) :
    mapPut ((dedupKeys ps).map (fun x => (x, g x))) o (g o) =
      (dedupKeys (ps ++ [o])).map (fun x => (x, g x)) := by
  rw [dedupKeys_append_single]
  by_cases ho : o ∈ dedupKeys ps
  · have h1 : insertNew (dedupKeys ps) o = dedupKeys ps := by
      unfold insertNew
      rw [if_pos ho]
    rw [h1, mapPut_pos _ _ _ (by rw [alookup_map_pure]; simp [ho]),
      List.map_map]
    apply List.map_congr_left
    intro x _
    by_cases hx : x = o
    · subst hx
      simp [Function.comp]
    · simp [Function.comp, hx]
  · have h1 : insertNew (dedupKeys ps) o = dedupKeys ps ++ [o] := by
      unfold insertNew
      rw [if_neg ho]
    rw [h1, mapPut_neg _ _ _ (by rw [alookup_map_pure]; simp [ho]),
      List.map_append]
    rfl

theorem foldl_mapPut_pure {α β' : Type} [DecidableEq α] (g : α → β') :
    ∀ (os ps : List α),
      os.foldl (fun m o => mapPut m o (g o))
        ((dedupKeys ps).map (fun x => (x, g x))) =
      (dedupKeys (ps ++ os)).map (fun x => (x, g x)) := by
  intro os
  induction os with
  | nil => intro ps; rw [List.append_nil, List.foldl_nil]
  | cons o os ih =>
    intro ps
    rw [List.foldl_cons, mapPut_pure_step g ps o, ih (ps ++ [o]),
      List.append_assoc, List.singleton_append]

/-- C2: on an unfaulted pipeline with a present inner sequence and present
selectors, `GroupJoin` succeeds and produces exactly one result per
distinct outer element value (equal outer elements collapse), each formed
by the result selector from that outer value and exactly the inner
elements whose computed key equals the outer element's key; with no
overlapping keys every group is the empty group, one per distinct outer
value. -/
theorem groupjoin_spec {α β κ γ : Type} [DecidableEq α] [DecidableEq κ]
    (q : Queryable α) (h : q.err = none) (innerC : List β)
    (oks : α → κ) (iks : β → κ) (res : α → List β → γ) :
    (q.GroupJoin (some innerC) (some oks) (some iks) (some res)).err =
      none ∧
    (q.GroupJoin (some innerC) (some oks) (some iks) (some res)).values =
      (dedupKeys q.values).map
        (fun o => res o (innerC.filter (fun i => iks i = oks o))) ∧
    (q.GroupJoin (some innerC) (some oks) (some iks)
      (some res)).values.length = (dedupKeys q.values).length ∧
    ((∀ o ∈ q.values, ∀ i ∈ innerC, ¬(iks i = oks o)) →
      (q.GroupJoin (some innerC) (some oks) (some iks) (some res)).values =
        (dedupKeys q.values).map (fun o => res o [])) := by
  have hgj : q.GroupJoin (some innerC) (some oks) (some iks) (some res) =
      ⟨(q.values.foldl (groupJoinStep oks iks innerC) []).map
        (fun p => res p.1 p.2), none⟩ := by
    unfold Queryable.GroupJoin
    rw [h]
  have hstep : (groupJoinStep oks iks innerC :
      List (α × List β) → α → List (α × List β)) =
      fun m o => mapPut m o (innerC.filter (fun i => iks i = oks o)) := by
    funext m o
    exact groupJoinStep_eq oks iks innerC m o
  have hfold : q.values.foldl (groupJoinStep oks iks innerC) [] =
      (dedupKeys q.values).map
        (fun o => (o, innerC.filter (fun i => iks i = oks o))) := by
    rw [hstep]
    have hpure := foldl_mapPut_pure
      (fun o => innerC.filter (fun i => iks i = oks o)) q.values []
    simpa using hpure
  have hvals : (q.GroupJoin (some innerC) (some oks) (some iks)
      (some res)).values =
      (dedupKeys q.values).map
        (fun o => res o (innerC.filter (fun i => iks i = oks o))) := by
    rw [hgj]
    simp only
    rw [hfold, List.map_map]
    rfl
  refine ⟨by rw [hgj], hvals, by rw [hvals, List.length_map], ?_⟩
  intro hnone
  rw [hvals]
  apply List.map_congr_left
  intro o ho
  have hfe : innerC.filter (fun i => iks i = oks o) = [] := by
    rw [List.filter_eq_nil_iff]
    intro i hi
    simpa using hnone o ((mem_dedupKeys _ _).mp ho) i hi
  rw [hfe]

/-- Witness for C2 at a concrete pipeline: outers `[1, 2, 1]` (the two
equal outers collapse into one group), inners `[10, 11, 20]` keyed by
integer division by ten. -/
theorem groupjoin_spec_witness :
    ((⟨[1, 2, 1], none⟩ : Queryable Int).GroupJoin (some [10, 11, 20])
      (some (fun o => o)) (some (fun i => i / 10))
      (some (fun o g => (o, g)))).values = [(1, [10, 11]), (2, [20])] := by
  have h := (groupjoin_spec (⟨[1, 2, 1], none⟩ : Queryable Int) rfl
    [10, 11, 20] (fun o => o) (fun i => i / 10)
    (fun o g => (o, g))).2.1
  rw [h]
  decide
